import Mathlib

/-!
Shallow embedding of the deno_lint ignore-directive module
(src/ignore_directives.rs) and of the NoVar rule (src/rules/no_var.rs).

Modelling conventions:
* Rust strings are lists of characters (`Str`); whitespace is modelled
  uniformly by `Char.isWhitespace`.
* The Rust `HashMap` is modelled as an association list built by
  last-wins insertion (`collectHM`); its keys are unique by construction.
* `IgnoreDirective<T>`'s phantom scope parameter `T` has no runtime
  content and is dropped.
* Mutation (`check_used` / `mark_as_used`) is modelled by explicit state
  passing: the mutated value is returned.
-/

namespace DenoLint

abbrev Str := List Char

def isWS (c : Char) : Bool := c.isWhitespace

def isComma (c : Char) : Bool := c == ','

/-- Separator characters of an ignore comment's code list: whitespace or a comma. -/
def sepChar (c : Char) : Bool := isWS c || isComma c

/-- Model of Rust str::trim_start. -/
def trimLeft (s : Str) : Str := s.dropWhile isWS

/-- Model of Rust str::trim_end. -/
def trimRight (s : Str) : Str := (s.reverse.dropWhile isWS).reverse

/-- Model of Rust str::trim. -/
def trim (s : Str) : Str := trimRight (trimLeft s)

/-- Model of Rust s.split_whitespace().next(): the first maximal
whitespace-free run of s, if any. -/
def firstToken (s : Str) : Option Str :=
  let t := (s.dropWhile isWS).takeWhile (fun c => !isWS c)
  if t.isEmpty then none else some t

/-- Model of Rust str::strip_prefix, returning the remainder when the
first argument is a prefix of the second. -/
def stripPre? : Str → Str → Option Str
  | [], s => some s
  | _ :: _, [] => none
  | p :: ps, c :: cs => if p = c then stripPre? ps cs else none

/-- Model of Rust str::split on a character class: one entry per
separator-free segment, keeping empty segments between adjacent
separators (and at the ends). -/
def splitP (p : Char → Bool) : Str → List Str
  | [] => [[]]
  | c :: cs =>
    if p c then [] :: splitP p cs
    else
      match splitP p cs with
      | [] => [[c]]
      | t :: ts => (c :: t) :: ts

/-- Model of the regex replacement IGNORE_COMMENT_CODE_RE.replace_all
with "," where the regex is a comma followed by a whitespace run, or a
single whitespace character (leftmost match, greedy star).  A literal
comma absorbs the whitespace run following it; every other whitespace
character becomes one comma.  The flag records whether the scanner is
inside the whitespace run that follows a literal comma. -/
def replaceSepsAux : Bool → Str → Str
  | _, [] => []
  | afterComma, c :: cs =>
    if isComma c then ',' :: replaceSepsAux true cs
    else if isWS c then
      (if afterComma then replaceSepsAux true cs
       else ',' :: replaceSepsAux false cs)
    else c :: replaceSepsAux false cs

def replaceSeps (s : Str) : Str := replaceSepsAux false s

/-- Maximal runs of characters not satisfying p: the words of s with
respect to the separator class p. -/
def wordsBy (p : Char → Bool) : Str → List Str
  | [] => []
  | c :: cs =>
    if p c then wordsBy p cs
    else (c :: cs.takeWhile (fun d => !p d)) :: wordsBy p (cs.dropWhile (fun d => !p d))
termination_by s => s.length
decreasing_by
  · simp only [List.length_cons]
    omega
  · have h := (List.dropWhile_sublist (l := cs) (fun d => !p d)).length_le
    simp only [List.length_cons]
    omega

inductive CommentKind
  | Line
  | Block
deriving DecidableEq, Repr

structure Span where
  lo : Nat
  hi : Nat
deriving DecidableEq, Repr

structure Comment where
  kind : CommentKind
  text : Str
  span : Span
deriving DecidableEq, Repr

structure CodeStatus where
  used : Bool
deriving DecidableEq, Repr

/-- Rust CodeStatus::default(): the flag starts out false. -/
def CodeStatus.default : CodeStatus := ⟨false⟩

/-- Rust CodeStatus::mark_as_used. -/
def CodeStatus.mark_as_used (s : CodeStatus) : CodeStatus := { s with used := true }

/-- HashMap insertion: replaces the entry of an existing key in place,
otherwise appends a fresh entry. -/
def insertHM {κ β : Type} [DecidableEq κ] (k : κ) (v : β) :
    List (κ × β) → List (κ × β)
  | [] => [(k, v)]
  | (k', v') :: rest =>
    if k' = k then (k, v) :: rest else (k', v') :: insertHM k v rest

/-- HashMap lookup. -/
def lookupHM {κ β : Type} [DecidableEq κ] (k : κ) : List (κ × β) → Option β
  | [] => none
  | (k', v) :: rest => if k' = k then some v else lookupHM k rest

/-- Model of collecting an iterator of pairs into a HashMap:
left-to-right insertion, so a later entry with an equal key overwrites
an earlier one. -/
def collectHM {κ β : Type} [DecidableEq κ] (l : List (κ × β)) : List (κ × β) :=
  l.foldl (fun m q => insertHM q.1 q.2 m) []

/-- Model of IgnoreDirective: a span and the per-code status map. -/
structure IgnoreDirective where
  span : Span
  codes : List (Str × CodeStatus)
deriving DecidableEq, Repr

/-- If the directive has no codes specified, all the rules are ignored. -/
def IgnoreDirective.ignore_all (d : IgnoreDirective) : Bool := d.codes.isEmpty

def IgnoreDirective.has_code (d : IgnoreDirective) (code : Str) : Bool :=
  (lookupHM code d.codes).isSome

/-- In-place update of the status stored under an existing key:
HashMap::get_mut followed by CodeStatus::mark_as_used. -/
def setUsed (code : Str) : List (Str × CodeStatus) → List (Str × CodeStatus)
  | [] => []
  | (k, v) :: rest =>
    if k = code then (k, v.mark_as_used) :: rest else (k, v) :: setUsed code rest

/-- Model of IgnoreDirective::check_used: the boolean is the Rust return
value; the directive is the (possibly) mutated self. -/
def IgnoreDirective.check_used (d : IgnoreDirective) (code : Str) :
    Bool × IgnoreDirective :=
  if (lookupHM code d.codes).isSome then
    (true, { d with codes := setUsed code d.codes })
  else (false, d)

/-- Code-list tokenization inside parse_ignore_comment: the regex
replacement, a split on commas, dropping empty pieces, trimming each
surviving piece and pairing it with a fresh CodeStatus. -/
def parsedCodePairs (rest : Str) : List (Str × CodeStatus) :=
  (splitP isComma (replaceSeps rest)).filterMap
    (fun code => if code.isEmpty then none else some (trim code, CodeStatus.default))

/-- Model of parse_ignore_comment.  The source's
strip_prefix(..).unwrap() appears as the none branch of stripPre?, which
is proved unreachable below. -/
def parse_ignore_comment (kw : Str) (c : Comment) : Option IgnoreDirective :=
  if c.kind ≠ CommentKind.Line then none
  else
    match firstToken (trim c.text) with
    | none => none
    | some pre =>
      if pre = kw then
        match stripPre? kw (trim c.text) with
        | none => none
        | some rest =>
          some { span := c.span, codes := collectHM (parsedCodePairs rest) }
      else none

/-- The slice of the ast_view::Program interface consumed by the
directive extractors: the full comment list, the leading comments
attached to the start of the unit (comment attachment itself is
behaviour of the external host parser), and the source file's line-index
function. -/
structure SourceProgram where
  allComments : List Comment
  leadingComments : List Comment
  lineIndex : Nat → Nat

/-- Model of parse_line_ignore_directives: every comment of the unit is
scanned, each parsed directive is keyed by the line index of its span's
start, and the pairs are collected into a HashMap. -/
def parse_line_ignore_directives (kw : Str) (p : SourceProgram) :
    List (Nat × IgnoreDirective) :=
  collectHM (p.allComments.filterMap (fun c =>
    (parse_ignore_comment kw c).map (fun d => (p.lineIndex d.span.lo, d))))

/-- Model of parse_file_ignore_directives: the first leading comment
that parses as a directive. -/
def parse_file_ignore_directives (kw : Str) (p : SourceProgram) :
    Option IgnoreDirective :=
  p.leadingComments.findSome? (parse_ignore_comment kw)

inductive VarDeclKind
  | Var
  | Let
  | Const
deriving DecidableEq, Repr

/-- Statement tree walked by the NoVar rule.  A variable declaration
carries the subtree of its own declarators' initializers (children),
since an initializer expression, e.g. a function expression, can itself
hold further statements and so further variable declarations; blocks
give ordinary nesting; exprStmt stands for any other statement. -/
inductive Stmt
  | varDecl (span : Span) (kind : VarDeclKind) (children : List Stmt)
  | block (body : List Stmt)
  | exprStmt (span : Span)

/-- ProgramRef of the rule interface: a module or a plain script. -/
inductive ProgramRef
  | module (body : List Stmt)
  | script (body : List Stmt)

structure Diagnostic where
  span : Span
  code : Str
  message : Str
deriving DecidableEq, Repr

/-- The fixed message of the NoVar rule. -/
def MESSAGE : Str := "`var` keyword is not allowed.".toList

/-- The code of the NoVar rule. -/
def CODE : Str := "no-var".toList

mutual
/-- NoVarVisitor's traversal of one statement.  The overridden
visit_var_decl reports one diagnostic when the declaration kind is Var
and returns without calling visit_children_with, so the visitor never
descends into a variable declaration's own children; every other
statement is traversed for nested declarations. -/
def visit_var_stmt : Stmt → List Diagnostic
  | .varDecl sp k _ =>
    if k = VarDeclKind.Var then [⟨sp, CODE, MESSAGE⟩] else []
  | .block body => visit_var_stmts body
  | .exprStmt _ => []

def visit_var_stmts : List Stmt → List Diagnostic
  | [] => []
  | s :: rest => visit_var_stmt s ++ visit_var_stmts rest
end

/-- Model of NoVar::lint_program: a module and a script are visited with
the same visitor. -/
def NoVar.lint_program : ProgramRef → List Diagnostic
  | .module body => visit_var_stmts body
  | .script body => visit_var_stmts body

mutual
/-- All variable-declaration nodes of a statement in tree order,
including those nested inside another variable declaration's own
children. -/
def varDeclNodes : Stmt → List (Span × VarDeclKind)
  | .varDecl sp k children => (sp, k) :: varDeclNodesList children
  | .block body => varDeclNodesList body
  | .exprStmt _ => []

def varDeclNodesList : List Stmt → List (Span × VarDeclKind)
  | [] => []
  | s :: rest => varDeclNodes s ++ varDeclNodesList rest
end

/-- All variable-declaration nodes of a program. -/
def ProgramRef.varDecls : ProgramRef → List (Span × VarDeclKind)
  | .module body => varDeclNodesList body
  | .script body => varDeclNodesList body

mutual
/-- The variable-declaration nodes the NoVar visitor actually reaches:
tree order, but never inside another variable declaration's children,
mirroring the missing visit_children_with call. -/
def visitedVarDecls : Stmt → List (Span × VarDeclKind)
  | .varDecl sp k _ => [(sp, k)]
  | .block body => visitedVarDeclsList body
  | .exprStmt _ => []

def visitedVarDeclsList : List Stmt → List (Span × VarDeclKind)
  | [] => []
  | s :: rest => visitedVarDecls s ++ visitedVarDeclsList rest
end

/-- The variable-declaration nodes of a program reached by the visitor. -/
def ProgramRef.visitedVars : ProgramRef → List (Span × VarDeclKind)
  | .module body => visitedVarDeclsList body
  | .script body => visitedVarDeclsList body

/-! Helper lemmas about the character-list operations. -/

theorem len_dropWhile_le (p : Char → Bool) (l : Str) :
    (l.dropWhile p).length ≤ l.length :=
  (List.dropWhile_sublist (l := l) p).length_le

theorem dropWhile_head_false {p : Char → Bool} :
    ∀ {l : Str} {d : Char} {r : Str}, l.dropWhile p = d :: r → p d = false := by
  intro l
  induction l with
  | nil => intro d r h; simp [List.dropWhile] at h
  | cons c cs ih =>
    intro d r h
    by_cases hc : p c
    · rw [List.dropWhile_cons_of_pos hc] at h
      exact ih h
    · rw [List.dropWhile_cons_of_neg hc] at h
      simp only [List.cons.injEq] at h
      rcases h with ⟨h1, _⟩
      subst h1
      simpa using hc

theorem takeWhile_append_all {p : Char → Bool} (l₁ l₂ : Str)
    (h : ∀ a ∈ l₁, p a = true) :
    (l₁ ++ l₂).takeWhile p = l₁ ++ l₂.takeWhile p := by
  induction l₁ with
  | nil => simp
  | cons c cs ih =>
    have hc : p c = true := h c (by simp)
    simp only [List.cons_append, List.takeWhile_cons, hc, if_true]
    rw [ih (fun a ha => h a (by simp [ha]))]

theorem mem_takeWhile_sat {p : Char → Bool} :
    ∀ {l : Str} {a : Char}, a ∈ l.takeWhile p → p a = true := by
  intro l
  induction l with
  | nil => intro a h; simp [List.takeWhile] at h
  | cons c cs ih =>
    intro a h
    by_cases hc : p c
    · rw [List.takeWhile_cons_of_pos hc] at h
      rcases List.mem_cons.mp h with h1 | h1
      · rwa [h1]
      · exact ih h1
    · rw [List.takeWhile_cons_of_neg hc] at h
      simp at h

theorem trimRight_append (l : Str) :
    trimRight l ++ (l.reverse.takeWhile isWS).reverse = l := by
  unfold trimRight
  rw [← List.reverse_append, List.takeWhile_append_dropWhile, List.reverse_reverse]

theorem trim_dropWhile (s : Str) : (trim s).dropWhile isWS = trim s := by
  cases h : trim s with
  | nil => simp [List.dropWhile]
  | cons c t =>
    have hdec : trim s ++ ((trimLeft s).reverse.takeWhile isWS).reverse = trimLeft s :=
      trimRight_append (trimLeft s)
    rw [h] at hdec
    have hdw : s.dropWhile isWS = c :: (t ++ ((trimLeft s).reverse.takeWhile isWS).reverse) := by
      have h2 := hdec.symm
      rw [List.cons_append] at h2
      exact h2
    have hc : isWS c = false := dropWhile_head_false hdw
    rw [List.dropWhile_cons_of_neg (by simp [hc])]

theorem stripPre_append (p r : Str) : stripPre? p (p ++ r) = some r := by
  induction p with
  | nil => rfl
  | cons c cs ih => simp [stripPre?, ih]

theorem firstToken_eq (s kw : Str) (h : firstToken (trim s) = some kw) :
    kw = (trim s).takeWhile (fun c => !isWS c) := by
  unfold firstToken at h
  rw [trim_dropWhile] at h
  by_cases he : ((trim s).takeWhile (fun c => !isWS c)).isEmpty
  · simp [he] at h
  · simp only [he, Bool.false_eq_true, if_false, Option.some.injEq] at h
    exact h.symm

theorem firstToken_stripPre (s kw : Str) (h : firstToken (trim s) = some kw) :
    stripPre? kw (trim s) = some ((trim s).dropWhile (fun c => !isWS c)) := by
  have hkw := firstToken_eq s kw h
  have hu : trim s = kw ++ (trim s).dropWhile (fun c => !isWS c) := by
    rw [hkw]
    exact (List.takeWhile_append_dropWhile (p := fun c => !isWS c) (l := trim s)).symm
  conv_lhs => rw [hu]
  exact stripPre_append _ _

/-! Lemmas connecting the source's split-after-regex-replacement pipeline
to the extensional tokenization wordsBy sepChar. -/

theorem splitP_eq (p : Char → Bool) (s : Str) :
    splitP p s = (s.takeWhile (fun c => !p c)) ::
      (match s.dropWhile (fun c => !p c) with
       | [] => []
       | _ :: r => splitP p r) := by
  induction s with
  | nil => simp [splitP, List.takeWhile, List.dropWhile]
  | cons c cs ih =>
    by_cases h : p c
    · rw [List.takeWhile_cons_of_neg (by simp [h]), List.dropWhile_cons_of_neg (by simp [h])]
      simp [splitP, h]
    · rw [List.takeWhile_cons_of_pos (by simp [h]), List.dropWhile_cons_of_pos (by simp [h])]
      conv_lhs => rw [splitP]
      simp only [h, Bool.false_eq_true, if_false]
      rw [ih]

theorem filter_splitP (p : Char → Bool) :
    ∀ (n : Nat) (s : Str), s.length ≤ n →
      (splitP p s).filter (fun t => !t.isEmpty) = wordsBy p s := by
  intro n
  induction n with
  | zero =>
    intro s hs
    have hnil : s = [] := by cases s <;> simp at hs ⊢
    subst hnil
    simp [splitP, wordsBy]
  | succ n ih =>
    intro s hs
    cases s with
    | nil => simp [splitP, wordsBy]
    | cons c cs =>
      have hcs : cs.length ≤ n := by simp at hs; omega
      by_cases h : p c
      · have hw : wordsBy p (c :: cs) = wordsBy p cs := by simp [wordsBy, h]
        have hsp : splitP p (c :: cs) = [] :: splitP p cs := by simp [splitP, h]
        rw [hw, hsp, ← ih cs hcs]
        simp [List.filter_cons]
      · rw [splitP_eq]
        have htw : (c :: cs).takeWhile (fun d => !p d) = c :: cs.takeWhile (fun d => !p d) :=
          List.takeWhile_cons_of_pos (by simp [h])
        have hdw : (c :: cs).dropWhile (fun d => !p d) = cs.dropWhile (fun d => !p d) :=
          List.dropWhile_cons_of_pos (by simp [h])
        rw [htw, hdw]
        have hww : wordsBy p (c :: cs) =
            (c :: cs.takeWhile (fun d => !p d)) :: wordsBy p (cs.dropWhile (fun d => !p d)) := by
          simp [wordsBy, h]
        rw [hww, List.filter_cons]
        simp only [List.isEmpty_cons, Bool.not_false, if_true]
        congr 1
        cases hd : cs.dropWhile (fun d => !p d) with
        | nil => simp [wordsBy]
        | cons d r =>
          have hpd : p d = true := by
            have := dropWhile_head_false hd
            simpa using this
          have hr : r.length ≤ n := by
            have hlen := len_dropWhile_le (fun d => !p d) cs
            rw [hd] at hlen
            simp only [List.length_cons] at hlen
            omega
          have : wordsBy p (d :: r) = wordsBy p r := by simp [wordsBy, hpd]
          rw [this, ← ih r hr]

theorem filter_splitP_eq_wordsBy (p : Char → Bool) (s : Str) :
    (splitP p s).filter (fun t => !t.isEmpty) = wordsBy p s :=
  filter_splitP p s.length s le_rfl

theorem replaceSepsAux_true (s : Str) :
    replaceSepsAux true s = replaceSepsAux false (s.dropWhile isWS) := by
  induction s with
  | nil => simp [replaceSepsAux, List.dropWhile]
  | cons c cs ih =>
    by_cases hcm : isComma c
    · have hceq : c = ',' := by simpa [isComma] using hcm
      have hw : isWS c = false := by subst hceq; decide
      rw [List.dropWhile_cons_of_neg (by simp [hw])]
      simp [replaceSepsAux, hcm]
    · by_cases hw : isWS c
      · rw [List.dropWhile_cons_of_pos hw]
        simp [replaceSepsAux, hcm, hw, ih]
      · rw [List.dropWhile_cons_of_neg (by simp [hw])]
        simp [replaceSepsAux, hcm, hw]

theorem takeWhile_replaceSeps :
    ∀ s : Str, (replaceSepsAux false s).takeWhile (fun d => !isComma d) =
      s.takeWhile (fun d => !sepChar d) := by
  intro s
  induction s with
  | nil => simp [replaceSepsAux]
  | cons c cs ih =>
    by_cases hcm : isComma c
    · have h1 : replaceSepsAux false (c :: cs) = ',' :: replaceSepsAux true cs := by
        simp [replaceSepsAux, hcm]
      have hsep : sepChar c = true := by simp [sepChar, hcm]
      rw [h1, List.takeWhile_cons_of_neg (by simp [isComma]),
        List.takeWhile_cons_of_neg (by simp [hsep])]
    · by_cases hw : isWS c
      · have h1 : replaceSepsAux false (c :: cs) = ',' :: replaceSepsAux false cs := by
          simp [replaceSepsAux, hcm, hw]
        have hsep : sepChar c = true := by simp [sepChar, hw]
        rw [h1, List.takeWhile_cons_of_neg (by simp [isComma]),
          List.takeWhile_cons_of_neg (by simp [hsep])]
      · have h1 : replaceSepsAux false (c :: cs) = c :: replaceSepsAux false cs := by
          simp [replaceSepsAux, hcm, hw]
        have hsep : sepChar c = false := by
          simp only [sepChar, hw, Bool.false_or]
          simpa using hcm
        have hc1 : isComma c = false := by simpa using hcm
        rw [h1, List.takeWhile_cons_of_pos (by simp [hc1]),
          List.takeWhile_cons_of_pos (by simp [hsep]), ih]

theorem dropWhile_replaceSeps :
    ∀ s : Str, (replaceSepsAux false s).dropWhile (fun d => !isComma d) =
      replaceSepsAux false (s.dropWhile (fun d => !sepChar d)) := by
  intro s
  induction s with
  | nil => simp [replaceSepsAux, List.dropWhile]
  | cons c cs ih =>
    by_cases hcm : isComma c
    · have h1 : replaceSepsAux false (c :: cs) = ',' :: replaceSepsAux true cs := by
        simp [replaceSepsAux, hcm]
      have hsep : sepChar c = true := by simp [sepChar, hcm]
      rw [h1, List.dropWhile_cons_of_neg (by simp [isComma]),
        List.dropWhile_cons_of_neg (by simp [hsep])]
      simp [replaceSepsAux, hcm]
    · by_cases hw : isWS c
      · have h1 : replaceSepsAux false (c :: cs) = ',' :: replaceSepsAux false cs := by
          simp [replaceSepsAux, hcm, hw]
        have hsep : sepChar c = true := by simp [sepChar, hw]
        rw [h1, List.dropWhile_cons_of_neg (by simp [isComma]),
          List.dropWhile_cons_of_neg (by simp [hsep])]
        simp [replaceSepsAux, hcm, hw]
      · have h1 : replaceSepsAux false (c :: cs) = c :: replaceSepsAux false cs := by
          simp [replaceSepsAux, hcm, hw]
        have hsep : sepChar c = false := by
          simp only [sepChar, hw, Bool.false_or]
          simpa using hcm
        have hc1 : isComma c = false := by simpa using hcm
        rw [h1, List.dropWhile_cons_of_pos (by simp [hc1]),
          List.dropWhile_cons_of_pos (by simp [hsep]), ih]

theorem wordsBy_sep_dropWhile_ws (s : Str) :
    wordsBy sepChar (s.dropWhile isWS) = wordsBy sepChar s := by
  induction s with
  | nil => simp [List.dropWhile]
  | cons c cs ih =>
    by_cases hw : isWS c
    · rw [List.dropWhile_cons_of_pos hw, ih]
      have hsep : sepChar c = true := by simp [sepChar, hw]
      simp [wordsBy, hsep]
    · rw [List.dropWhile_cons_of_neg (by simp [hw])]

theorem wordsBy_replaceSeps_le :
    ∀ (n : Nat) (s : Str), s.length ≤ n →
      wordsBy isComma (replaceSepsAux false s) = wordsBy sepChar s := by
  intro n
  induction n with
  | zero =>
    intro s hs
    have hnil : s = [] := by cases s <;> simp at hs ⊢
    subst hnil
    simp [replaceSepsAux, wordsBy]
  | succ n ih =>
    intro s hs
    cases s with
    | nil => simp [replaceSepsAux, wordsBy]
    | cons c cs =>
      have hcs : cs.length ≤ n := by simp at hs; omega
      by_cases hcm : isComma c
      · have h1 : replaceSepsAux false (c :: cs) = ',' :: replaceSepsAux true cs := by
          simp [replaceSepsAux, hcm]
        rw [h1, replaceSepsAux_true]
        have h2 : wordsBy isComma (',' :: replaceSepsAux false (cs.dropWhile isWS)) =
            wordsBy isComma (replaceSepsAux false (cs.dropWhile isWS)) := by
          simp [wordsBy, isComma]
        rw [h2, ih _ (le_trans (len_dropWhile_le _ _) hcs), wordsBy_sep_dropWhile_ws]
        have hsep : sepChar c = true := by simp [sepChar, hcm]
        simp [wordsBy, hsep]
      · by_cases hw : isWS c
        · have h1 : replaceSepsAux false (c :: cs) = ',' :: replaceSepsAux false cs := by
            simp [replaceSepsAux, hcm, hw]
          rw [h1]
          have h2 : wordsBy isComma (',' :: replaceSepsAux false cs) =
              wordsBy isComma (replaceSepsAux false cs) := by
            simp [wordsBy, isComma]
          rw [h2, ih cs hcs]
          have hsep : sepChar c = true := by simp [sepChar, hw]
          simp [wordsBy, hsep]
        · have h1 : replaceSepsAux false (c :: cs) = c :: replaceSepsAux false cs := by
            simp [replaceSepsAux, hcm, hw]
          rw [h1]
          have hc1 : isComma c = false := by simpa using hcm
          have hsep : sepChar c = false := by
            simp only [sepChar, hw, Bool.false_or]
            simpa using hcm
          rw [show wordsBy isComma (c :: replaceSepsAux false cs) =
              (c :: (replaceSepsAux false cs).takeWhile (fun d => !isComma d)) ::
                wordsBy isComma ((replaceSepsAux false cs).dropWhile (fun d => !isComma d)) from by
            simp [wordsBy, hc1]]
          rw [takeWhile_replaceSeps, dropWhile_replaceSeps,
            ih _ (le_trans (len_dropWhile_le _ _) hcs)]
          rw [show wordsBy sepChar (c :: cs) =
              (c :: cs.takeWhile (fun d => !sepChar d)) ::
                wordsBy sepChar (cs.dropWhile (fun d => !sepChar d)) from by
            simp [wordsBy, hsep]]

theorem wordsBy_replaceSeps (s : Str) :
    wordsBy isComma (replaceSeps s) = wordsBy sepChar s :=
  wordsBy_replaceSeps_le s.length s le_rfl

theorem parsedCodePairs_filter (l : List Str) :
    l.filterMap
        (fun code => if code.isEmpty then none else some (trim code, CodeStatus.default)) =
      (l.filter (fun t => !t.isEmpty)).map (fun t => (trim t, CodeStatus.default)) := by
  induction l with
  | nil => rfl
  | cons t ts ih =>
    by_cases h : t = []
    · subst h
      simp [List.filterMap_cons, List.filter_cons]
      simpa using ih
    · simp [List.filterMap_cons, List.filter_cons, h]
      simpa using ih

theorem parsedCodePairs_eq (rest : Str) :
    parsedCodePairs rest =
      (wordsBy sepChar rest).map (fun t => (trim t, CodeStatus.default)) := by
  unfold parsedCodePairs
  rw [parsedCodePairs_filter, filter_splitP_eq_wordsBy, wordsBy_replaceSeps]

/-! Lemmas about the HashMap model. -/

theorem lookupHM_insertHM_self {κ β : Type} [DecidableEq κ] (k : κ) (v : β)
    (m : List (κ × β)) : lookupHM k (insertHM k v m) = some v := by
  induction m with
  | nil => simp [insertHM, lookupHM]
  | cons q rest ih =>
    obtain ⟨k', v'⟩ := q
    by_cases h : k' = k
    · simp [insertHM, lookupHM, h]
    · simp [insertHM, lookupHM, h, ih]

theorem lookupHM_insertHM_ne {κ β : Type} [DecidableEq κ] (a k : κ) (v : β)
    (m : List (κ × β)) (h : a ≠ k) : lookupHM a (insertHM k v m) = lookupHM a m := by
  induction m with
  | nil => simp [insertHM, lookupHM, Ne.symm h]
  | cons q rest ih =>
    obtain ⟨k', v'⟩ := q
    by_cases h2 : k' = k
    · subst h2
      simp [insertHM, lookupHM, Ne.symm h]
    · by_cases h3 : k' = a
      · simp [insertHM, lookupHM, h2, h3, h, Ne.symm h]
      · simp [insertHM, lookupHM, h2, h3, ih]

theorem lookupHM_collectHM {κ β : Type} [DecidableEq κ] (l : List (κ × β)) (k : κ) :
    lookupHM k (collectHM l) =
      (l.reverse.find? (fun q => decide (q.1 = k))).map Prod.snd := by
  induction l using List.reverseRecOn with
  | nil => simp [collectHM, lookupHM]
  | append_singleton l q ih =>
    have hfold : collectHM (l ++ [q]) = insertHM q.1 q.2 (collectHM l) := by
      unfold collectHM
      rw [List.foldl_append]
      rfl
    rw [hfold, List.reverse_append]
    simp only [List.reverse_cons, List.reverse_nil, List.nil_append, List.singleton_append]
    by_cases h : q.1 = k
    · rw [h, lookupHM_insertHM_self, List.find?_cons_of_pos _ (by simp [h])]
      rfl
    · rw [lookupHM_insertHM_ne k q.1 q.2 _ (fun he => h he.symm),
        List.find?_cons_of_neg _ (by simp [h]), ih]

theorem mem_keys_insertHM {κ β : Type} [DecidableEq κ] (a k : κ) (v : β)
    (m : List (κ × β)) :
    a ∈ (insertHM k v m).map Prod.fst ↔ a = k ∨ a ∈ m.map Prod.fst := by
  induction m with
  | nil => simp [insertHM]
  | cons q rest ih =>
    obtain ⟨k', v'⟩ := q
    by_cases h : k' = k
    · subst h
      simp [insertHM]
    · simp [insertHM, h, ih]
      tauto

theorem nodup_keys_insertHM {κ β : Type} [DecidableEq κ] (k : κ) (v : β)
    (m : List (κ × β)) (h : (m.map Prod.fst).Nodup) :
    ((insertHM k v m).map Prod.fst).Nodup := by
  induction m with
  | nil => simp [insertHM]
  | cons q rest ih =>
    obtain ⟨k', v'⟩ := q
    simp only [List.map_cons, List.nodup_cons] at h
    by_cases h2 : k' = k
    · have he : insertHM k v ((k', v') :: rest) = (k, v) :: rest := by
        simp [insertHM, h2]
      rw [he]
      simp only [List.map_cons, List.nodup_cons]
      exact ⟨h2 ▸ h.1, h.2⟩
    · simp only [insertHM, h2, if_false, List.map_cons, List.nodup_cons]
      refine ⟨?_, ih h.2⟩
      intro hmem
      rw [mem_keys_insertHM] at hmem
      rcases hmem with h3 | h3
      · exact h2 h3
      · exact h.1 h3

theorem nodup_keys_collectHM {κ β : Type} [DecidableEq κ] (l : List (κ × β)) :
    ((collectHM l).map Prod.fst).Nodup := by
  suffices h : ∀ m : List (κ × β), (m.map Prod.fst).Nodup →
      ((l.foldl (fun m q => insertHM q.1 q.2 m) m).map Prod.fst).Nodup by
    exact h [] (by simp)
  induction l with
  | nil =>
    intro m hm
    simpa using hm
  | cons q rest ih =>
    intro m hm
    simp only [List.foldl_cons]
    exact ih _ (nodup_keys_insertHM _ _ _ hm)

theorem lookupHM_collectHM_const {κ β : Type} [DecidableEq κ] (l : List (κ × β))
    (v0 : β) (hv : ∀ q ∈ l, q.2 = v0) (k : κ) :
    lookupHM k (collectHM l) = if k ∈ l.map Prod.fst then some v0 else none := by
  rw [lookupHM_collectHM]
  by_cases h : k ∈ l.map Prod.fst
  · rw [if_pos h]
    have hsome : (l.reverse.find? (fun q => decide (q.1 = k))).isSome = true := by
      rw [List.find?_isSome]
      obtain ⟨q, hq, hqk⟩ := List.mem_map.mp h
      exact ⟨q, by simpa using hq, by simp [hqk]⟩
    obtain ⟨r, hr⟩ := Option.isSome_iff_exists.mp hsome
    have hrl : r ∈ l := by
      have := List.mem_of_find?_eq_some hr
      simpa using this
    rw [hr]
    simp [hv r hrl]
  · rw [if_neg h]
    have hnone : l.reverse.find? (fun q => decide (q.1 = k)) = none := by
      rw [List.find?_eq_none]
      intro q hq
      simp only [decide_eq_true_eq]
      intro hqk
      exact h (List.mem_map.mpr ⟨q, by simpa using hq, hqk⟩)
    rw [hnone]
    rfl

/-! Characterization of parse_ignore_comment. -/

theorem parse_eq_some_of (kw : Str) (c : Comment)
    (h1 : c.kind = CommentKind.Line) (h2 : firstToken (trim c.text) = some kw) :
    parse_ignore_comment kw c =
      some { span := c.span,
             codes := collectHM
               (parsedCodePairs ((trim c.text).dropWhile (fun d => !isWS d))) } := by
  unfold parse_ignore_comment
  rw [h2, firstToken_stripPre _ _ h2]
  simp [h1]

theorem parse_isSome_iff (kw : Str) (c : Comment) :
    (parse_ignore_comment kw c).isSome = true ↔
      (c.kind = CommentKind.Line ∧ firstToken (trim c.text) = some kw) := by
  constructor
  · intro h
    by_cases h1 : c.kind = CommentKind.Line
    · refine ⟨h1, ?_⟩
      unfold parse_ignore_comment at h
      rw [if_neg (by simp [h1])] at h
      cases hft : firstToken (trim c.text) with
      | none =>
        rw [hft] at h
        simp at h
      | some pre =>
        rw [hft] at h
        by_cases hp : pre = kw
        · rw [hp]
        · simp [hp] at h
    · unfold parse_ignore_comment at h
      rw [if_pos (by simp [h1])] at h
      simp at h
  · rintro ⟨h1, h2⟩
    rw [parse_eq_some_of kw c h1 h2]
    rfl

/-! Lemmas about List.findSome?. -/

theorem findSome?_eq_none_iff {α β : Type} (f : α → Option β) (l : List α) :
    l.findSome? f = none ↔ ∀ a ∈ l, f a = none := by
  induction l with
  | nil => simp [List.findSome?]
  | cons a as ih =>
    rw [List.findSome?_cons]
    cases hfa : f a with
    | none => simp [hfa, ih]
    | some b =>
      constructor
      · intro h
        exact absurd h (by simp)
      · intro hall
        have h := hall a (by simp)
        rw [hfa] at h
        exact absurd h (by simp)

theorem findSome?_eq_some_iff {α β : Type} (f : α → Option β) (l : List α) (b : β) :
    l.findSome? f = some b ↔
      ∃ l1 a l2, l = l1 ++ a :: l2 ∧ (∀ x ∈ l1, f x = none) ∧ f a = some b := by
  induction l with
  | nil =>
    simp only [List.findSome?_nil]
    constructor
    · intro h
      exact absurd h (by simp)
    · rintro ⟨l1, a, l2, hl, -, -⟩
      exact absurd hl (by simp)
  | cons x xs ih =>
    rw [List.findSome?_cons]
    cases hfx : f x with
    | some c =>
      constructor
      · intro h
        refine ⟨[], x, xs, by simp, by simp, ?_⟩
        rw [hfx]
        exact h
      · rintro ⟨l1, a, l2, hl, hnone, hfa⟩
        cases l1 with
        | nil =>
          simp only [List.nil_append, List.cons.injEq] at hl
          rw [← hl.1] at hfa
          rw [hfx] at hfa
          exact hfa
        | cons y l1' =>
          simp only [List.cons_append, List.cons.injEq] at hl
          have hx : f x = none := by
            rw [hl.1]
            exact hnone y (by simp)
          rw [hfx] at hx
          exact absurd hx (by simp)
    | none =>
      rw [ih]
      constructor
      · rintro ⟨l1, a, l2, hl, hnone, hfa⟩
        refine ⟨x :: l1, a, l2, by rw [hl, List.cons_append], ?_, hfa⟩
        intro y hy
        rcases List.mem_cons.mp hy with hy | hy
        · rw [hy]
          exact hfx
        · exact hnone y hy
      · rintro ⟨l1, a, l2, hl, hnone, hfa⟩
        cases l1 with
        | nil =>
          simp only [List.nil_append, List.cons.injEq] at hl
          rw [← hl.1] at hfa
          rw [hfx] at hfa
          exact absurd hfa (by simp)
        | cons y l1' =>
          simp only [List.cons_append, List.cons.injEq] at hl
          refine ⟨l1', a, l2, hl.2, ?_, hfa⟩
          intro z hz
          exact hnone z (by simp [hz])

/-! The NoVar visitor produces one diagnostic per Var node. -/

mutual
theorem visit_var_stmt_eq (s : Stmt) :
    visit_var_stmt s = (visitedVarDecls s).filterMap
      (fun q => if q.2 = VarDeclKind.Var then some ⟨q.1, CODE, MESSAGE⟩ else none) := by
  cases s with
  | varDecl sp k children =>
    by_cases h : k = VarDeclKind.Var
    · simp [visit_var_stmt, visitedVarDecls, h]
    · simp [visit_var_stmt, visitedVarDecls, h]
  | block body =>
    rw [show visit_var_stmt (Stmt.block body) = visit_var_stmts body from by
        rw [visit_var_stmt],
      show visitedVarDecls (Stmt.block body) = visitedVarDeclsList body from by
        rw [visitedVarDecls]]
    exact visit_var_stmts_eq body
  | exprStmt sp => simp [visit_var_stmt, visitedVarDecls]

theorem visit_var_stmts_eq (l : List Stmt) :
    visit_var_stmts l = (visitedVarDeclsList l).filterMap
      (fun q => if q.2 = VarDeclKind.Var then some ⟨q.1, CODE, MESSAGE⟩ else none) := by
  cases l with
  | nil => simp [visit_var_stmts, visitedVarDeclsList]
  | cons s rest =>
    rw [show visit_var_stmts (s :: rest) = visit_var_stmt s ++ visit_var_stmts rest from by
        rw [visit_var_stmts],
      show visitedVarDeclsList (s :: rest) =
          visitedVarDecls s ++ visitedVarDeclsList rest from by
        rw [visitedVarDeclsList]]
    rw [List.filterMap_append, visit_var_stmt_eq s, visit_var_stmts_eq rest]
end

theorem lint_program_eq (p : ProgramRef) :
    NoVar.lint_program p = p.visitedVars.filterMap
      (fun q => if q.2 = VarDeclKind.Var then some ⟨q.1, CODE, MESSAGE⟩ else none) := by
  cases p with
  | module body =>
    rw [show NoVar.lint_program (ProgramRef.module body) = visit_var_stmts body from rfl,
      show (ProgramRef.module body).visitedVars = visitedVarDeclsList body from rfl]
    exact visit_var_stmts_eq body
  | script body =>
    rw [show NoVar.lint_program (ProgramRef.script body) = visit_var_stmts body from rfl,
      show (ProgramRef.script body).visitedVars = visitedVarDeclsList body from rfl]
    exact visit_var_stmts_eq body

theorem firstToken_glued (kw : Str) (ch : Char) (rest : Str) (hch : isWS ch = false) :
    firstToken (kw ++ ch :: rest) ≠ some kw := by
  intro h
  unfold firstToken at h
  by_cases he : (((kw ++ ch :: rest).dropWhile isWS).takeWhile (fun c => !isWS c)).isEmpty
  · simp [he] at h
  · simp only [he, Bool.false_eq_true, if_false, Option.some.injEq] at h
    have hall : ∀ a ∈ kw, (fun c => !isWS c) a = true := by
      intro a ha
      have hmem : a ∈ ((kw ++ ch :: rest).dropWhile isWS).takeWhile (fun c => !isWS c) := by
        rw [h]
        exact ha
      exact mem_takeWhile_sat hmem
    cases kw with
    | nil =>
      rw [h] at he
      simp at he
    | cons k0 ks =>
      have hk0 : isWS k0 = false := by
        have hh := hall k0 (by simp)
        simpa using hh
      have hdrop : ((k0 :: ks) ++ ch :: rest).dropWhile isWS = (k0 :: ks) ++ ch :: rest := by
        rw [List.cons_append]
        exact List.dropWhile_cons_of_neg (by simp [hk0])
      rw [hdrop, takeWhile_append_all _ _ hall,
        List.takeWhile_cons_of_pos (by simp [hch])] at h
      have hlen := congrArg List.length h
      simp [List.length_append] at hlen

/-! Lemmas about setUsed and lookups. -/

theorem mark_as_used_eq (s : CodeStatus) : s.mark_as_used = ⟨true⟩ := rfl

theorem lookupHM_setUsed_self (code : Str) (m : List (Str × CodeStatus)) :
    lookupHM code (setUsed code m) = (lookupHM code m).map CodeStatus.mark_as_used := by
  induction m with
  | nil => simp [setUsed, lookupHM]
  | cons q rest ih =>
    obtain ⟨k, v⟩ := q
    by_cases h : k = code
    · simp [setUsed, lookupHM, h]
    · simp [setUsed, lookupHM, h, ih]

theorem lookupHM_setUsed_ne (a code : Str) (m : List (Str × CodeStatus)) (h : a ≠ code) :
    lookupHM a (setUsed code m) = lookupHM a m := by
  induction m with
  | nil => simp [setUsed]
  | cons q rest ih =>
    obtain ⟨k, v⟩ := q
    by_cases h2 : k = code
    · subst h2
      simp [setUsed, lookupHM, Ne.symm h]
    · by_cases h3 : k = a
      · simp [setUsed, lookupHM, h2, h3, h]
      · simp [setUsed, lookupHM, h2, h3, ih]

theorem keys_setUsed (code : Str) (m : List (Str × CodeStatus)) :
    (setUsed code m).map Prod.fst = m.map Prod.fst := by
  induction m with
  | nil => rfl
  | cons q rest ih =>
    obtain ⟨k, v⟩ := q
    by_cases h : k = code
    · simp [setUsed, h, ih]
    · simp [setUsed, h, ih]

theorem lookupHM_isSome_iff_mem {κ β : Type} [DecidableEq κ] (k : κ) (m : List (κ × β)) :
    (lookupHM k m).isSome = true ↔ k ∈ m.map Prod.fst := by
  induction m with
  | nil => simp [lookupHM]
  | cons q rest ih =>
    obtain ⟨k', v⟩ := q
    by_cases h : k' = k
    · simp [lookupHM, h]
    · simp [lookupHM, h, Ne.symm h, ih]

/-! The claims. -/

/-- C1: for every line comment whose trimmed text's first
whitespace-delimited token equals the directive keyword,
parse_ignore_comment tokenizes the remainder after the keyword treating
any run of whitespace, or a comma optionally followed by whitespace, as
a single separator (extensionally: the maximal runs of
non-whitespace-non-comma characters); empty tokens are discarded, and
each surviving token, trimmed, is exactly one key of the returned
directive's codes mapping, paired with a CodeStatus whose used flag is
false. -/
theorem C1_codes_tokenization (kw : Str) (c : Comment)
    (h1 : c.kind = CommentKind.Line)
    (h2 : firstToken (trim c.text) = some kw) :
    ∃ d rest, parse_ignore_comment kw c = some d ∧
      stripPre? kw (trim c.text) = some rest ∧
      (∀ k, lookupHM k d.codes = some CodeStatus.default ↔
        k ∈ (wordsBy sepChar rest).map trim) ∧
      (∀ k v, lookupHM k d.codes = some v → v = CodeStatus.default) := by
  have hv : ∀ q ∈ (wordsBy sepChar ((trim c.text).dropWhile (fun d => !isWS d))).map
      (fun t => (trim t, CodeStatus.default)), q.2 = CodeStatus.default := by
    intro q hq
    obtain ⟨t, -, ht⟩ := List.mem_map.mp hq
    rw [← ht]
  have hcomp : (Prod.fst ∘ fun t : Str => (trim t, CodeStatus.default)) = trim :=
    funext (fun t => rfl)
  refine ⟨_, _, parse_eq_some_of kw c h1 h2, firstToken_stripPre _ _ h2, ?_, ?_⟩
  · intro k
    show lookupHM k (collectHM (parsedCodePairs ((trim c.text).dropWhile (fun d => !isWS d)))) =
        some CodeStatus.default ↔ _
    rw [parsedCodePairs_eq, lookupHM_collectHM_const _ _ hv k, List.map_map, hcomp]
    by_cases h : k ∈ (wordsBy sepChar ((trim c.text).dropWhile (fun d => !isWS d))).map trim
    · simp [h]
    · simp [h]
  · intro k v hkv
    have hkv2 : lookupHM k
        (collectHM (parsedCodePairs ((trim c.text).dropWhile (fun d => !isWS d)))) =
          some v := hkv
    rw [parsedCodePairs_eq, lookupHM_collectHM_const _ _ hv k] at hkv2
    by_cases h : k ∈ ((wordsBy sepChar ((trim c.text).dropWhile (fun d => !isWS d))).map
        (fun t => (trim t, CodeStatus.default))).map Prod.fst
    · rw [if_pos h] at hkv2
      exact (Option.some.inj hkv2).symm
    · rw [if_neg h] at hkv2
      exact absurd hkv2 (by simp)

/-- Witness for C1: a concrete line comment with two codes. -/
theorem C1_codes_tokenization_witness :
    ∃ d rest,
      parse_ignore_comment "ig".toList ⟨CommentKind.Line, "ig a, b".toList, ⟨0, 7⟩⟩ =
        some d ∧
      stripPre? "ig".toList
        (trim (⟨CommentKind.Line, "ig a, b".toList, ⟨0, 7⟩⟩ : Comment).text) = some rest ∧
      (∀ k, lookupHM k d.codes = some CodeStatus.default ↔
        k ∈ (wordsBy sepChar rest).map trim) ∧
      (∀ k v, lookupHM k d.codes = some v → v = CodeStatus.default) :=
  C1_codes_tokenization "ig".toList ⟨CommentKind.Line, "ig a, b".toList, ⟨0, 7⟩⟩
    rfl (by decide)

/-- C2: parse_ignore_comment returns a directive iff the comment is a
Line comment whose trimmed text's first whitespace-delimited token is
exactly the keyword; a block comment never parses, and a keyword
immediately followed by non-whitespace never parses. -/
theorem C2_parse_condition (kw : Str) (c : Comment) :
    ((∃ d, parse_ignore_comment kw c = some d) ↔
      (c.kind = CommentKind.Line ∧ firstToken (trim c.text) = some kw)) ∧
    (c.kind = CommentKind.Block → parse_ignore_comment kw c = none) ∧
    (∀ (ch : Char) (rest : Str), isWS ch = false → trim c.text = kw ++ ch :: rest →
      parse_ignore_comment kw c = none) := by
  have hiff := parse_isSome_iff kw c
  refine ⟨?_, ?_, ?_⟩
  · rw [← hiff]
    constructor
    · rintro ⟨d, hd⟩
      rw [hd]
      rfl
    · intro h
      exact Option.isSome_iff_exists.mp h
  · intro hb
    cases hopt : parse_ignore_comment kw c with
    | none => rfl
    | some d =>
      have hli := hiff.mp (by rw [hopt]; rfl)
      rw [hb] at hli
      exact CommentKind.noConfusion hli.1
  · intro ch rest hch htrim
    cases hopt : parse_ignore_comment kw c with
    | none => rfl
    | some d =>
      have h2 := (hiff.mp (by rw [hopt]; rfl)).2
      rw [htrim] at h2
      exact absurd h2 (firstToken_glued kw ch rest hch)

/-- Witness for C2: a block comment bearing the keyword does not parse. -/
theorem C2_parse_condition_witness :
    parse_ignore_comment "ig".toList ⟨CommentKind.Block, "ig a".toList, ⟨0, 4⟩⟩ = none :=
  (C2_parse_condition "ig".toList ⟨CommentKind.Block, "ig a".toList, ⟨0, 4⟩⟩).2.1 rfl

/-- C10: when the first whitespace-delimited token of the trimmed
comment text equals the keyword, the keyword is a string prefix of the
trimmed text, so the strip_prefix followed by unwrap in the source
cannot panic: the model's stripPre? is some. -/
theorem C10_strip_unwrap_safe (kw : Str) (c : Comment)
    (h : firstToken (trim c.text) = some kw) :
    (stripPre? kw (trim c.text)).isSome = true := by
  rw [firstToken_stripPre _ _ h]
  rfl

/-- Witness for C10 at a concrete comment. -/
theorem C10_strip_unwrap_safe_witness :
    (stripPre? "ig".toList
      (trim (⟨CommentKind.Line, "  ig a".toList, ⟨0, 6⟩⟩ : Comment).text)).isSome = true :=
  C10_strip_unwrap_safe "ig".toList ⟨CommentKind.Line, "  ig a".toList, ⟨0, 6⟩⟩ (by decide)

/-- C3: parse_file_ignore_directives considers only the leading comments
of the unit and returns the first of them that parses as a directive
with the file-scope keyword; later qualifying leading comments
contribute nothing, and if no leading comment parses it returns none. -/
theorem C3_file_directive (kw : Str) (p : SourceProgram) :
    (parse_file_ignore_directives kw p = none ↔
      ∀ c ∈ p.leadingComments, parse_ignore_comment kw c = none) ∧
    (∀ d, parse_file_ignore_directives kw p = some d ↔
      ∃ before c after, p.leadingComments = before ++ c :: after ∧
        (∀ c2 ∈ before, parse_ignore_comment kw c2 = none) ∧
        parse_ignore_comment kw c = some d) :=
  ⟨findSome?_eq_none_iff _ _, fun d => findSome?_eq_some_iff _ _ d⟩

/-- Witness for C3: with two directive-shaped leading comments, the
result is exactly the first one's directive. -/
theorem C3_file_directive_witness :
    parse_file_ignore_directives "ig".toList
      ⟨[], [⟨CommentKind.Line, "ig foo".toList, ⟨0, 6⟩⟩,
            ⟨CommentKind.Line, "ig bar".toList, ⟨7, 13⟩⟩], fun _ => 0⟩ =
      some ⟨⟨0, 6⟩, [("foo".toList, ⟨false⟩)]⟩ := by
  rw [(C3_file_directive "ig".toList
    ⟨[], [⟨CommentKind.Line, "ig foo".toList, ⟨0, 6⟩⟩,
          ⟨CommentKind.Line, "ig bar".toList, ⟨7, 13⟩⟩], fun _ => 0⟩).2
    ⟨⟨0, 6⟩, [("foo".toList, ⟨false⟩)]⟩]
  refine ⟨[], ⟨CommentKind.Line, "ig foo".toList, ⟨0, 6⟩⟩,
    [⟨CommentKind.Line, "ig bar".toList, ⟨7, 13⟩⟩], rfl, by simp, by decide⟩

/-- C4: parse_line_ignore_directives scans every comment of the unit,
keys each parsed directive by the line index of its span's start, keeps
at most one directive per line, and on a key collision the directive of
the later-scanned comment wins. -/
theorem C4_line_directives (kw : Str) (p : SourceProgram) :
    ((parse_line_ignore_directives kw p).map Prod.fst).Nodup ∧
    ∀ n, lookupHM n (parse_line_ignore_directives kw p) =
      ((p.allComments.filterMap (fun c =>
          (parse_ignore_comment kw c).map
            (fun d => (p.lineIndex d.span.lo, d)))).reverse.find?
        (fun q => decide (q.1 = n))).map Prod.snd :=
  ⟨nodup_keys_collectHM _, fun n => lookupHM_collectHM _ n⟩

/-- Witness for C4: two directive comments on the same line; the second
one's directive is the one retained. -/
theorem C4_line_directives_witness :
    ((parse_line_ignore_directives "ig".toList
      ⟨[⟨CommentKind.Line, "ig foo".toList, ⟨0, 6⟩⟩,
        ⟨CommentKind.Line, "ig bar".toList, ⟨7, 13⟩⟩], [], fun _ => 4⟩).map Prod.fst).Nodup ∧
    ∀ n, lookupHM n (parse_line_ignore_directives "ig".toList
        ⟨[⟨CommentKind.Line, "ig foo".toList, ⟨0, 6⟩⟩,
          ⟨CommentKind.Line, "ig bar".toList, ⟨7, 13⟩⟩], [], fun _ => 4⟩) =
      ((([⟨CommentKind.Line, "ig foo".toList, ⟨0, 6⟩⟩,
          ⟨CommentKind.Line, "ig bar".toList, ⟨7, 13⟩⟩] : List Comment).filterMap (fun c =>
          (parse_ignore_comment "ig".toList c).map
            (fun d => ((fun _ => 4 : Nat → Nat) d.span.lo, d)))).reverse.find?
        (fun q => decide (q.1 = n))).map Prod.snd :=
  C4_line_directives "ig".toList
    ⟨[⟨CommentKind.Line, "ig foo".toList, ⟨0, 6⟩⟩,
      ⟨CommentKind.Line, "ig bar".toList, ⟨7, 13⟩⟩], [], fun _ => 4⟩

/-- C5: a successfully parsed directive whose remainder after the
keyword holds no code tokens has an empty codes mapping, and ignore_all
holds exactly when the codes mapping is empty. -/
theorem C5_ignore_all_sentinel (kw : Str) (c : Comment)
    (h1 : c.kind = CommentKind.Line)
    (h2 : firstToken (trim c.text) = some kw)
    (h3 : ∀ rest, stripPre? kw (trim c.text) = some rest → wordsBy sepChar rest = []) :
    (∃ d, parse_ignore_comment kw c = some d ∧ d.codes = [] ∧ d.ignore_all = true) ∧
    (∀ d : IgnoreDirective, d.ignore_all = true ↔ d.codes = []) := by
  constructor
  · have hr := h3 _ (firstToken_stripPre _ _ h2)
    have hcodes :
        collectHM (parsedCodePairs ((trim c.text).dropWhile (fun d => !isWS d))) = [] := by
      rw [parsedCodePairs_eq, hr]
      rfl
    refine ⟨_, parse_eq_some_of kw c h1 h2, hcodes, ?_⟩
    have hie :
        (collectHM (parsedCodePairs ((trim c.text).dropWhile (fun d => !isWS d)))).isEmpty =
          true := by
      rw [hcodes]
      rfl
    exact hie
  · intro d
    unfold IgnoreDirective.ignore_all
    simp [List.isEmpty_iff]

/-- Witness for C5: a comment that is exactly the keyword. -/
theorem C5_ignore_all_sentinel_witness :
    (∃ d, parse_ignore_comment "ig".toList ⟨CommentKind.Line, "ig".toList, ⟨0, 2⟩⟩ =
        some d ∧ d.codes = [] ∧ d.ignore_all = true) ∧
    (∀ d : IgnoreDirective, d.ignore_all = true ↔ d.codes = []) :=
  C5_ignore_all_sentinel "ig".toList ⟨CommentKind.Line, "ig".toList, ⟨0, 2⟩⟩ rfl (by decide)
    (by
      intro rest hrest
      rw [show stripPre? "ig".toList
          (trim (⟨CommentKind.Line, "ig".toList, ⟨0, 2⟩⟩ : Comment).text) =
          some ([] : Str) from by decide] at hrest
      injection hrest with h
      rw [← h]
      simp [wordsBy])

/-- C6: check_used returns true exactly when the code is a key of the
directive's codes mapping; on success the used flag of that code's
status is true afterwards; on failure the directive is unchanged. -/
theorem C6_check_used_spec (d : IgnoreDirective) (code : Str) :
    ((d.check_used code).1 = true ↔ code ∈ d.codes.map Prod.fst) ∧
    ((d.check_used code).1 = true →
      lookupHM code ((d.check_used code).2).codes = some ⟨true⟩) ∧
    ((d.check_used code).1 = false → (d.check_used code).2 = d) := by
  by_cases h : (lookupHM code d.codes).isSome
  · have hcu : d.check_used code = (true, { d with codes := setUsed code d.codes }) := by
      unfold IgnoreDirective.check_used
      rw [if_pos h]
    rw [hcu]
    have hmem := (lookupHM_isSome_iff_mem code d.codes).mp h
    refine ⟨by simp [hmem], ?_, ?_⟩
    · intro _
      show lookupHM code (setUsed code d.codes) = some ⟨true⟩
      rw [lookupHM_setUsed_self]
      obtain ⟨v, hv⟩ := Option.isSome_iff_exists.mp h
      rw [hv]
      rfl
    · intro hf
      exact absurd hf (by simp)
  · have hcu : d.check_used code = (false, d) := by
      unfold IgnoreDirective.check_used
      rw [if_neg h]
    rw [hcu]
    refine ⟨?_, ?_, fun _ => rfl⟩
    · constructor
      · intro hf
        exact absurd hf (by simp)
      · intro hmem
        exact absurd ((lookupHM_isSome_iff_mem code d.codes).mpr hmem) h
    · intro hf
      exact absurd hf (by simp)

/-- Witness for C6 at a concrete directive. -/
theorem C6_check_used_spec_witness :
    (((⟨⟨0, 1⟩, [("a".toList, ⟨false⟩)]⟩ : IgnoreDirective).check_used "a".toList).1 = true ↔
      "a".toList ∈ ([("a".toList, (⟨false⟩ : CodeStatus))]).map Prod.fst) ∧
    (((⟨⟨0, 1⟩, [("a".toList, ⟨false⟩)]⟩ : IgnoreDirective).check_used "a".toList).1 = true →
      lookupHM "a".toList
        ((((⟨⟨0, 1⟩, [("a".toList, ⟨false⟩)]⟩ : IgnoreDirective).check_used
          "a".toList).2)).codes = some ⟨true⟩) ∧
    (((⟨⟨0, 1⟩, [("a".toList, ⟨false⟩)]⟩ : IgnoreDirective).check_used "a".toList).1 = false →
      (((⟨⟨0, 1⟩, [("a".toList, ⟨false⟩)]⟩ : IgnoreDirective).check_used "a".toList).2) =
        ⟨⟨0, 1⟩, [("a".toList, ⟨false⟩)]⟩) :=
  C6_check_used_spec ⟨⟨0, 1⟩, [("a".toList, ⟨false⟩)]⟩ "a".toList

/-- C7 counterexample: the claim as frozen is false on the code.  For a
script whose single statement is a var declaration holding a nested
var declaration in its initializer subtree (var x = function () { var
y = 1; }) the inner node is a var-kind variable-declaration node of the
tree, yet the traversal emits only the outer diagnostic, because the
overridden visit_var_decl never visits the declaration's children. -/
theorem C7_no_var_counterexample :
    NoVar.lint_program (ProgramRef.script
        [Stmt.varDecl ⟨0, 30⟩ VarDeclKind.Var
          [Stmt.varDecl ⟨19, 29⟩ VarDeclKind.Var []]]) ≠
      (ProgramRef.script
          [Stmt.varDecl ⟨0, 30⟩ VarDeclKind.Var
            [Stmt.varDecl ⟨19, 29⟩ VarDeclKind.Var []]]).varDecls.filterMap
        (fun q => if q.2 = VarDeclKind.Var then some ⟨q.1, CODE, MESSAGE⟩ else none) := by
  intro h
  have hL : NoVar.lint_program (ProgramRef.script
      [Stmt.varDecl ⟨0, 30⟩ VarDeclKind.Var
        [Stmt.varDecl ⟨19, 29⟩ VarDeclKind.Var []]]) =
      [⟨⟨0, 30⟩, CODE, MESSAGE⟩] := by
    simp [NoVar.lint_program, visit_var_stmts, visit_var_stmt]
  have hR : (ProgramRef.script
      [Stmt.varDecl ⟨0, 30⟩ VarDeclKind.Var
        [Stmt.varDecl ⟨19, 29⟩ VarDeclKind.Var []]]).varDecls =
      [(⟨0, 30⟩, VarDeclKind.Var), (⟨19, 29⟩, VarDeclKind.Var)] := by
    simp [ProgramRef.varDecls, varDeclNodesList, varDeclNodes]
  rw [hL, hR] at h
  simp at h

/-- C7 amended: over a module or a script the NoVar traversal emits
exactly one diagnostic, with the no-var code, the fixed message and the
declaration's span, for each var-kind variable-declaration node that is
not nested inside another variable declaration's own subtree (the
visitor does not descend into a variable declaration's children), and
none for let or const declarations. -/
theorem C7_no_var_visited (p : ProgramRef) :
    NoVar.lint_program p = p.visitedVars.filterMap
      (fun q => if q.2 = VarDeclKind.Var then some ⟨q.1, CODE, MESSAGE⟩ else none) ∧
    ∀ body, NoVar.lint_program (ProgramRef.module body) =
      NoVar.lint_program (ProgramRef.script body) :=
  ⟨lint_program_eq p, fun _ => rfl⟩

/-- C8: no directive operation adds or removes a code key; check_used
preserves the span and every other entry, and the only change it makes
is setting a used flag to true. -/
theorem C8_frame (d : IgnoreDirective) (code : Str) :
    ((d.check_used code).2).span = d.span ∧
    ((d.check_used code).2).codes.map Prod.fst = d.codes.map Prod.fst ∧
    (∀ k, k ≠ code → lookupHM k ((d.check_used code).2).codes = lookupHM k d.codes) ∧
    (∀ k v, lookupHM k ((d.check_used code).2).codes = some v →
      v = (⟨true⟩ : CodeStatus) ∨ lookupHM k d.codes = some v) := by
  by_cases h : (lookupHM code d.codes).isSome
  · have hcu : d.check_used code = (true, { d with codes := setUsed code d.codes }) := by
      unfold IgnoreDirective.check_used
      rw [if_pos h]
    rw [hcu]
    refine ⟨rfl, keys_setUsed code d.codes, ?_, ?_⟩
    · intro k hk
      exact lookupHM_setUsed_ne k code d.codes hk
    · intro k v hkv
      by_cases hk : k = code
      · subst hk
        have hkv2 : lookupHM k (setUsed k d.codes) = some v := hkv
        rw [lookupHM_setUsed_self] at hkv2
        cases hl : lookupHM k d.codes with
        | none =>
          rw [hl] at hkv2
          exact absurd hkv2 (by simp)
        | some w =>
          rw [hl] at hkv2
          left
          have hw : w.mark_as_used = v := by
            simp only [Option.map_some'] at hkv2
            exact Option.some.inj hkv2
          rw [← hw]
          rfl
      · right
        have hkv2 : lookupHM k (setUsed code d.codes) = some v := hkv
        rw [lookupHM_setUsed_ne k code d.codes hk] at hkv2
        exact hkv2
  · have hcu : d.check_used code = (false, d) := by
      unfold IgnoreDirective.check_used
      rw [if_neg h]
    rw [hcu]
    exact ⟨rfl, rfl, fun k _ => rfl, fun k v hkv => Or.inr hkv⟩

/-- Witness for C8 at a concrete two-code directive. -/
theorem C8_frame_witness :
    (((⟨⟨0, 2⟩, [("a".toList, ⟨false⟩), ("b".toList, ⟨false⟩)]⟩ :
        IgnoreDirective).check_used "a".toList).2).span = ⟨0, 2⟩ ∧
    (((⟨⟨0, 2⟩, [("a".toList, ⟨false⟩), ("b".toList, ⟨false⟩)]⟩ :
        IgnoreDirective).check_used "a".toList).2).codes.map Prod.fst =
      ([("a".toList, (⟨false⟩ : CodeStatus)), ("b".toList, ⟨false⟩)]).map Prod.fst ∧
    (∀ k, k ≠ "a".toList →
      lookupHM k (((⟨⟨0, 2⟩, [("a".toList, ⟨false⟩), ("b".toList, ⟨false⟩)]⟩ :
          IgnoreDirective).check_used "a".toList).2).codes =
        lookupHM k [("a".toList, ⟨false⟩), ("b".toList, ⟨false⟩)]) ∧
    (∀ k v, lookupHM k (((⟨⟨0, 2⟩, [("a".toList, ⟨false⟩), ("b".toList, ⟨false⟩)]⟩ :
          IgnoreDirective).check_used "a".toList).2).codes = some v →
      v = (⟨true⟩ : CodeStatus) ∨
        lookupHM k [("a".toList, ⟨false⟩), ("b".toList, ⟨false⟩)] = some v) :=
  C8_frame ⟨⟨0, 2⟩, [("a".toList, ⟨false⟩), ("b".toList, ⟨false⟩)]⟩ "a".toList

/-- C9: parse_ignore_comment is deterministic in the comment's kind and
text: two comments of equal kind and text either both fail to parse or
yield directives with identical codes mappings. -/
theorem C9_parse_deterministic (kw : Str) (c1 c2 : Comment)
    (hk : c1.kind = c2.kind) (ht : c1.text = c2.text) :
    (parse_ignore_comment kw c1 = none ↔ parse_ignore_comment kw c2 = none) ∧
    (∀ d1 d2, parse_ignore_comment kw c1 = some d1 →
      parse_ignore_comment kw c2 = some d2 → d1.codes = d2.codes) := by
  constructor
  · constructor
    · intro hn
      cases hopt : parse_ignore_comment kw c2 with
      | none => rfl
      | some d =>
        have h2 := (parse_isSome_iff kw c2).mp (by rw [hopt]; rfl)
        have h1 : (parse_ignore_comment kw c1).isSome = true := by
          rw [parse_isSome_iff, hk, ht]
          exact h2
        rw [hn] at h1
        exact absurd h1 (by simp)
    · intro hn
      cases hopt : parse_ignore_comment kw c1 with
      | none => rfl
      | some d =>
        have h1 := (parse_isSome_iff kw c1).mp (by rw [hopt]; rfl)
        have h2 : (parse_ignore_comment kw c2).isSome = true := by
          rw [parse_isSome_iff, ← hk, ← ht]
          exact h1
        rw [hn] at h2
        exact absurd h2 (by simp)
  · intro d1 d2 hd1 hd2
    have hs1 := (parse_isSome_iff kw c1).mp (by rw [hd1]; rfl)
    have hs2 := (parse_isSome_iff kw c2).mp (by rw [hd2]; rfl)
    have he1 := parse_eq_some_of kw c1 hs1.1 hs1.2
    have he2 := parse_eq_some_of kw c2 hs2.1 hs2.2
    rw [he1] at hd1
    rw [he2] at hd2
    rw [← Option.some.inj hd1, ← Option.some.inj hd2]
    show collectHM (parsedCodePairs ((trim c1.text).dropWhile (fun d => !isWS d))) =
      collectHM (parsedCodePairs ((trim c2.text).dropWhile (fun d => !isWS d)))
    rw [ht]

/-- Witness for C9: equal text at different spans. -/
theorem C9_parse_deterministic_witness :
    (parse_ignore_comment "ig".toList ⟨CommentKind.Line, "ig a".toList, ⟨0, 4⟩⟩ = none ↔
      parse_ignore_comment "ig".toList ⟨CommentKind.Line, "ig a".toList, ⟨9, 13⟩⟩ = none) ∧
    (∀ d1 d2,
      parse_ignore_comment "ig".toList ⟨CommentKind.Line, "ig a".toList, ⟨0, 4⟩⟩ = some d1 →
      parse_ignore_comment "ig".toList ⟨CommentKind.Line, "ig a".toList, ⟨9, 13⟩⟩ = some d2 →
      d1.codes = d2.codes) :=
  C9_parse_deterministic "ig".toList ⟨CommentKind.Line, "ig a".toList, ⟨0, 4⟩⟩
    ⟨CommentKind.Line, "ig a".toList, ⟨9, 13⟩⟩ rfl rfl

end DenoLint
